import Mathlib

/-!
# Verification of the Emerson Dictionary core

A shallow embedding of the word-discovery core of the `emerson-dictionary`
web application (`src/web/src/App.tsx`).  Strings are modelled as lists of
Unicode code points (`List Nat`); the bridge `codes` converts a Lean string
literal to that representation for concrete test inputs.

The embedded functions mirror the source: `tokenize`, the stopword /
length filter and composite sort of the `results` memo, the two-tier
dictionary merge (`combinedDictMap`), `extractExampleSentence` with its
word-boundary search and sentence scans, `escapeRegExp`,
`loadUserDictionary` over a model of JSON values, and the user-dictionary
mutations `upsertUserDefinition` / `removeUserWord`.
-/

namespace EmersonDict

/-- Code points of a string literal (bridge for concrete inputs). -/
def codes (s : String) : List Nat :=
  s.data.map Char.toNat

/-- ASCII lowercasing of one code point, as `String.prototype.toLowerCase`
acts on ASCII: `A`–`Z` (65–90) shift by 32, everything else is fixed. -/
def toLowerC (n : Nat) : Nat :=
  if 65 ≤ n ∧ n ≤ 90 then n + 32 else n

/-- JavaScript whitespace for `String.prototype.trim`: space, tab, LF, CR,
VT, FF, NBSP, LS, PS, BOM. -/
def isSpaceJS (n : Nat) : Bool :=
  n = 32 || n = 9 || n = 10 || n = 13 || n = 11 || n = 12 ||
    n = 160 || n = 8232 || n = 8233 || n = 65279

/-- `String.prototype.trim`: drop whitespace from both ends. -/
def trimJS (l : List Nat) : List Nat :=
  ((l.dropWhile isSpaceJS).reverse.dropWhile isSpaceJS).reverse

/-- `normalizeWord` from the source: `word.trim().toLowerCase()`. -/
def normalizeWord (w : List Nat) : List Nat :=
  (trimJS w).map toLowerC

/-- A lowercase ASCII letter `a`–`z` (97–122). -/
def isLowerAZ (n : Nat) : Bool :=
  decide (97 ≤ n ∧ n ≤ 122)

/-- Code point of the apostrophe. -/
def apos : Nat := 39

/-- Scanner for the global regex `[a-z]+(?:'[a-z]+)?`: at a lowercase
letter, take the maximal letter run, optionally extended by one apostrophe
followed by a further nonempty letter run; all other characters are
skipped. -/
def tokenizeAux (l : List Nat) : List (List Nat) :=
  match l with
  | [] => []
  | c :: rest =>
    if isLowerAZ c then
      match hr : rest.dropWhile isLowerAZ with
      | a :: d :: rest2 =>
        if hA : a = apos ∧ isLowerAZ d then
          ((c :: rest.takeWhile isLowerAZ) ++ apos :: d :: rest2.takeWhile isLowerAZ)
            :: tokenizeAux (rest2.dropWhile isLowerAZ)
        else
          (c :: rest.takeWhile isLowerAZ) :: tokenizeAux (a :: d :: rest2)
      | r => (c :: rest.takeWhile isLowerAZ) :: tokenizeAux r
    else
      tokenizeAux rest
termination_by l.length
decreasing_by
  all_goals
    (have hLen : ∀ l : List Nat, (l.dropWhile isLowerAZ).length ≤ l.length := by
      intro l
      induction l with
      | nil => simp [List.dropWhile]
      | cons c cs ih =>
        rw [List.dropWhile_cons]
        by_cases h : isLowerAZ c
        · simp only [h, if_true, List.length_cons]
          omega
        · simp [h])
    (try (have h2 := hLen rest2))
    (have h1 := hLen rest)
    (try (rw [hr] at h1))
    clear hLen
    simp only [List.length_cons] at *
    omega

/-- `tokenize` from the source: lowercase the text, then extract all
matches of `[a-z]+(?:'[a-z]+)?`. -/
def tokenize (text : List Nat) : List (List Nat) :=
  tokenizeAux (text.map toLowerC)

/-- The stopword set from the source (`STOPWORDS`). -/
def STOPWORDS : List (List Nat) :=
  (["a", "an", "and", "are", "as", "at", "be", "been", "but", "by", "can",
    "could", "did", "do", "does", "for", "from", "had", "has", "have", "he",
    "her", "hers", "him", "his", "how", "i", "if", "in", "into", "is", "it",
    "its", "just", "like", "may", "me", "might", "more", "most", "my", "no",
    "not", "of", "on", "one", "or", "our", "out", "said", "she", "should",
    "so", "some", "than", "that", "the", "their", "them", "then", "there",
    "these", "they", "this", "to", "too", "up", "us", "was", "we", "were",
    "what", "when", "where", "which", "who", "will", "with", "would", "you",
    "your"]).map codes

/-- One step of frequency counting: `counts.set(t, (counts.get(t) ?? 0) + 1)`
on a `Map` modelled as an insertion-ordered association list. -/
def bump (m : List (List Nat × Nat)) (t : List Nat) : List (List Nat × Nat) :=
  match m with
  | [] => [(t, 1)]
  | (k, v) :: rest => if k = t then (k, v + 1) :: rest else (k, v) :: bump rest t

/-- The frequency table built by the `for (const t of tokens)` loop. -/
def countsOf (tokens : List (List Nat)) : List (List Nat × Nat) :=
  tokens.foldl bump []

/-- Lexicographic comparison of code-point strings, modelling
`wa.localeCompare(wb) ≤ 0` on lowercase ASCII tokens. -/
def lexLE : List Nat → List Nat → Bool
  | [], _ => true
  | _ :: _, [] => false
  | a :: as, b :: bs => if a = b then lexLE as bs else decide (a < b)

/-- The sort comparator of the `results` memo, as the relation
"compares less-or-equal": ascending count, then descending token length,
then lexicographic ascending. -/
def rankLE (x y : List Nat × Nat) : Bool :=
  if x.2 ≠ y.2 then decide (x.2 < y.2)
  else if x.1.length ≠ y.1.length then decide (y.1.length < x.1.length)
  else lexLE x.1 y.1

/-- The filter of the `results` memo: drop stopwords and tokens shorter
than 8 characters. -/
def filteredOf (text : List Nat) : List (List Nat × Nat) :=
  (countsOf (tokenize text)).filter
    (fun kv => !(STOPWORDS.contains kv.1) && !(decide (kv.1.length < 8)))

/-- The ranked candidate list of the `results` memo: filter, sort by the
comparator, truncate to 75 entries. -/
def candidatesOf (text : List Nat) : List (List Nat × Nat) :=
  (List.insertionSort (fun a b => rankLE a b = true) (filteredOf text)).take 75

/-- `Map.prototype.set` on an insertion-ordered association list: replace
the value in place if the key is present, else append.  Also models
property assignment on a plain JavaScript object. -/
def mapSet (m : List (List Nat × List Nat)) (k v : List Nat) :
    List (List Nat × List Nat) :=
  match m with
  | [] => [(k, v)]
  | (k0, v0) :: rest =>
    if k0 = k then (k0, v) :: rest else (k0, v0) :: mapSet rest k v

/-- `Map.prototype.get` on the association-list model. -/
def mapGet (m : List (List Nat × List Nat)) (k : List Nat) : Option (List Nat) :=
  match m with
  | [] => none
  | (k0, v0) :: rest => if k0 = k then some v0 else mapGet rest k

/-- `combinedDictMap` from the source: insert all base entries, then all
user entries under normalized keys (user wins). -/
def combinedDictMap (base user : List (List Nat × List Nat)) :
    List (List Nat × List Nat) :=
  user.foldl (fun m kv => mapSet m (normalizeWord kv.1) kv.2)
    (base.foldl (fun m kv => mapSet m kv.1 kv.2) [])

/-- The sentinel `"Not in your dictionary yet."`. -/
def sentinelDict : List Nat := codes "Not in your dictionary yet."

/-- The definition lookup in the `results` memo:
`combinedDictMap.get(normalizeWord(word)) ?? sentinel`. -/
def lookupDefinition (base user : List (List Nat × List Nat)) (w : List Nat) :
    List Nat :=
  (mapGet (combinedDictMap base user) (normalizeWord w)).getD sentinelDict

/-- Sentence terminator characters: `.` `!` `?` newline. -/
def isTerm (n : Nat) : Bool :=
  n = 46 || n = 33 || n = 63 || n = 10

/-- A JavaScript `\w` word character: letter, digit or underscore. -/
def isWordChar (n : Nat) : Bool :=
  decide (65 ≤ n ∧ n ≤ 90) || decide (97 ≤ n ∧ n ≤ 122) ||
    decide (48 ≤ n ∧ n ≤ 57) || n = 95

/-- A `\b` word-boundary assertion holds at position `p` of `t`:
exactly one of the neighbouring positions holds a word character
(positions outside the string count as non-word). -/
def boundaryAt (t : List Nat) (p : Nat) : Bool :=
  match p with
  | 0 => isWordChar (t.getD 0 0)
  | q + 1 => isWordChar (t.getD q 0) != isWordChar (t.getD (q + 1) 0)

/-- The pattern `\b w \b` (with `w` taken literally) matches at
position `i` of `t`. -/
def matchAt (t w : List Nat) (i : Nat) : Bool :=
  boundaryAt t i && boundaryAt t (i + w.length) &&
    decide ((t.drop i).take w.length = w)

/-- `lower.search(new RegExp("\\b" + escaped + "\\b", "i"))`: index of the
first whole-word match, if any. -/
def searchIdx (t w : List Nat) : Option Nat :=
  (List.range (t.length + 1)).find? (fun i => matchAt t w i)

/-- The backward sentence scan of `extractExampleSentence`, applied to the
reversed prefix before the match: number of characters stepped over before
a terminator (or the start of text) is reached. -/
def scanBackCount : List Nat → Nat
  | [] => 0
  | c :: cs => if isTerm c then 0 else scanBackCount cs + 1

/-- The forward sentence scan of `extractExampleSentence`, applied to the
suffix from the match: number of characters consumed, including a
terminating character when one is found. -/
def scanFwdCount : List Nat → Nat
  | [] => 0
  | c :: cs => if isTerm c then 1 else scanFwdCount cs + 1

/-- The sentinel `"No example found in your text."`. -/
def sentinelExample : List Nat := codes "No example found in your text."

/-- `extractExampleSentence` from the source: find the first
case-insensitive whole-word match, scan to sentence-ish boundaries,
slice and trim; the sentinel covers the no-match and empty-trim cases. -/
def extractExampleSentence (text word : List Nat) : List Nat :=
  let lower := text.map toLowerC
  let w := word.map toLowerC
  match searchIdx lower w with
  | none => sentinelExample
  | some idx =>
    let start := idx - scanBackCount ((text.take idx).reverse)
    let stop := idx + scanFwdCount (text.drop idx)
    let sentence := trimJS ((text.drop start).take (stop - start))
    if sentence.length > 0 then sentence else sentinelExample

/-- The regex metacharacters replaced by `escapeRegExp`:
`. * + ? ^ $ { } ( ) | [ ] \`. -/
def isMeta (n : Nat) : Bool :=
  n = 46 || n = 42 || n = 43 || n = 63 || n = 94 || n = 36 || n = 123 ||
    n = 125 || n = 40 || n = 41 || n = 124 || n = 91 || n = 93 || n = 92

/-- Code point of the backslash. -/
def backslash : Nat := 92

/-- `escapeRegExp` from the source: prefix every metacharacter with a
backslash. -/
def escapeRegExp (s : List Nat) : List Nat :=
  (s.map (fun c => if isMeta c then [backslash, c] else [c])).flatten

/-- Interpretation of a pattern fragment as a literal string: a bare
non-metacharacter stands for itself, a backslash followed by a
metacharacter stands for that character, and anything else (a bare
metacharacter, i.e. live regex syntax, or a dangling backslash) is not a
pure literal. -/
def litMatches : List Nat → Option (List Nat)
  | [] => some []
  | c :: rest =>
    if c = backslash then
      match rest with
      | [] => none
      | d :: rest2 =>
        if isMeta d then (litMatches rest2).map (fun t => d :: t) else none
    else if isMeta c then none
    else (litMatches rest).map (fun t => c :: t)

/-- Model of a parsed JSON value, the possible results of `JSON.parse`. -/
inductive JSValue where
  | jnull
  | jbool (b : Bool)
  | jnum (n : Int)
  | jstr (s : List Nat)
  | jarr (elems : List JSValue)
  | jobj (fields : List (List Nat × JSValue))

/-- JavaScript truthiness of a parsed JSON value (`!parsed`). -/
def isFalsy : JSValue → Bool
  | .jnull => true
  | .jbool b => !b
  | .jnum n => n == 0
  | .jstr s => s.isEmpty
  | .jarr _ => false
  | .jobj _ => false

/-- `typeof parsed === "object"` for a parsed JSON value. -/
def isObjectType : JSValue → Bool
  | .jnull => true
  | .jarr _ => true
  | .jobj _ => true
  | _ => false

/-- `Object.entries` on a parsed JSON value: the fields of an object, the
index-keyed elements of an array, nothing otherwise. -/
def jsEntries : JSValue → List (List Nat × JSValue)
  | .jobj fs => fs
  | .jarr es => es.enum.map (fun p => (codes (toString p.1), p.2))
  | _ => []

/-- `(v ?? "").toString()` for a parsed JSON value. -/
def jsToStr : JSValue → List Nat
  | .jnull => []
  | .jbool b => if b then codes "true" else codes "false"
  | .jnum n => codes (toString n)
  | .jstr s => s
  | .jarr es => List.intercalate [44] (es.attach.map (fun v => jsToStr v.1))
  | .jobj _ => codes "[object Object]"
decreasing_by
  have := List.sizeOf_lt_of_mem v.2
  simp at this ⊢
  omega

/-- The persisted slot as seen by `loadUserDictionary`: absent, a raw value
`JSON.parse` rejects, or a parsed JSON value. -/
inductive Persisted where
  | absent
  | corrupt
  | value (v : JSValue)

/-- `loadUserDictionary` from the source: absent or unparseable data and
non-object shapes give the empty mapping; otherwise every entry is stored
under its normalized key with trimmed value, empty results dropped. -/
def loadUserDictionary : Persisted → List (List Nat × List Nat)
  | .absent => []
  | .corrupt => []
  | .value v =>
    if isFalsy v || !isObjectType v then []
    else
      (jsEntries v).foldl
        (fun acc kv =>
          let nk := normalizeWord kv.1
          let nv := trimJS (jsToStr kv.2)
          if !nk.isEmpty && !nv.isEmpty then mapSet acc nk nv else acc) []

/-- `upsertUserDefinition` from the source: normalize the word, trim the
definition, no-op when either is empty, else insert/overwrite. -/
def upsertUserDefinition (user : List (List Nat × List Nat))
    (word defn : List Nat) : List (List Nat × List Nat) :=
  let w := normalizeWord word
  let d := trimJS defn
  if w.isEmpty || d.isEmpty then user else mapSet user w d

/-- `removeUserWord` from the source: normalize the word, no-op when
empty, else delete the key. -/
def removeUserWord (user : List (List Nat × List Nat)) (word : List Nat) :
    List (List Nat × List Nat) :=
  let w := normalizeWord word
  if w.isEmpty then user else user.filter (fun kv => !(decide (kv.1 = w)))

/-- The output record shape of the analysis. -/
structure UncommonWord where
  word : List Nat
  definition : List Nat
  exampleFromText : List Nat
deriving DecidableEq

/-- The `results` memo: empty text yields no records; otherwise each
ranked candidate becomes one record with merged-dictionary definition and
extracted example. -/
def resultsOf (base user : List (List Nat × List Nat)) (text : List Nat) :
    List UncommonWord :=
  if text.isEmpty then []
  else
    (candidatesOf text).map (fun kv =>
      { word := kv.1
        definition := lookupDefinition base user kv.1
        exampleFromText := extractExampleSentence text kv.1 })

/-! ### Specification-side definitions

These render the spec's own wording (priority lookup, nearest-terminator
sentence bounds, the token grammar, the composite ranking chain) and are
compared against the embedded source functions in the theorems below. -/

/-- Spec wording for the merged lookup: the user mapping's value for a
normalized key, latest entry winning. -/
def userValue (user : List (List Nat × List Nat)) (k : List Nat) :
    Option (List Nat) :=
  (user.reverse.find? (fun kv => decide (normalizeWord kv.1 = k))).map Prod.snd

/-- Spec wording for the merged lookup: the base mapping's value for a
key, latest entry winning. -/
def baseValue (base : List (List Nat × List Nat)) (k : List Nat) :
    Option (List Nat) :=
  (base.reverse.find? (fun kv => decide (kv.1 = k))).map Prod.snd

/-- Spec wording for a token: one or more lowercase letters, optionally
followed by a single apostrophe plus one or more lowercase letters. -/
def isValidToken (t : List Nat) : Bool :=
  !(t.takeWhile isLowerAZ).isEmpty &&
    ((t.dropWhile isLowerAZ).isEmpty ||
      (match t.dropWhile isLowerAZ with
       | a :: s => a = apos && !s.isEmpty && s.all isLowerAZ
       | [] => false))

/-- Spec wording: the nearest sentence terminator strictly before the
match position, if any. -/
def lastTermBefore (text : List Nat) (idx : Nat) : Option Nat :=
  (List.range idx).reverse.find? (fun j => isTerm (text.getD j 0))

/-- Spec wording: the sentence start is one past the nearest preceding
terminator (exclusive), or the start of text. -/
def sentenceStart (text : List Nat) (idx : Nat) : Nat :=
  match lastTermBefore text idx with
  | some j => j + 1
  | none => 0

/-- Spec wording: the nearest sentence terminator at or after the match
position, if any. -/
def firstTermFrom (text : List Nat) (idx : Nat) : Option Nat :=
  (List.range text.length).find? (fun j => decide (idx ≤ j) && isTerm (text.getD j 0))

/-- Spec wording: the sentence end is just past the nearest following
terminator (inclusive), or the end of text. -/
def sentenceStop (text : List Nat) (idx : Nat) : Nat :=
  match firstTermFrom text idx with
  | some j => j + 1
  | none => text.length

/-- The example extractor as the spec words it: first whole-word match,
nearest-terminator bounds, trimmed slice, sentinel on no match or empty
trim. -/
def extractExampleSpec (text word : List Nat) : List Nat :=
  match searchIdx (text.map toLowerC) (word.map toLowerC) with
  | none => sentinelExample
  | some idx =>
    let s := sentenceStart text idx
    let e := sentenceStop text idx
    let sentence := trimJS ((text.drop s).take (e - s))
    if sentence.length > 0 then sentence else sentinelExample

/-- The composite ranking chain as the spec words it: ascending count,
then descending token length on equal counts, then lexicographic
ascending on equal counts and lengths. -/
def rankRel (x y : List Nat × Nat) : Prop :=
  x.2 < y.2 ∨
    (x.2 = y.2 ∧
      (y.1.length < x.1.length ∨
        (x.1.length = y.1.length ∧ lexLE x.1 y.1 = true)))

/-! ## Helper lemmas -/

theorem toLowerC_idem (n : Nat) : toLowerC (toLowerC n) = toLowerC n := by
  unfold toLowerC
  split_ifs <;> omega

theorem isSpaceJS_toLowerC (n : Nat) : isSpaceJS (toLowerC n) = isSpaceJS n := by
  unfold toLowerC isSpaceJS
  split_ifs with h
  · rw [Bool.eq_iff_iff]
    simp only [Bool.or_eq_true, decide_eq_true_eq]
    constructor <;> (intro hc; omega)
  · rfl

theorem dropWhile_dropWhile (p : Nat → Bool) (l : List Nat) :
    (l.dropWhile p).dropWhile p = l.dropWhile p := by
  induction l with
  | nil => simp
  | cons c cs ih =>
    rw [List.dropWhile_cons]
    by_cases h : p c = true
    · rw [if_pos h]
      exact ih
    · rw [if_neg h, List.dropWhile_cons, if_neg h]

theorem head?_dropWhile_not (p : Nat → Bool) (l : List Nat) (c : Nat)
    (h : (l.dropWhile p).head? = some c) : p c = false := by
  induction l with
  | nil => simp at h
  | cons a as ih =>
    rw [List.dropWhile_cons] at h
    by_cases ha : p a = true
    · rw [if_pos ha] at h
      exact ih h
    · rw [if_neg ha] at h
      simp only [List.head?_cons, Option.some.injEq] at h
      subst h
      simpa using ha

theorem dropWhile_eq_self_of_head? (p : Nat → Bool) (l : List Nat)
    (h : ∀ c, l.head? = some c → p c = false) : l.dropWhile p = l := by
  cases l with
  | nil => simp
  | cons a as =>
    rw [List.dropWhile_cons, if_neg]
    simp [h a rfl]

theorem getLast?_dropWhile (p : Nat → Bool) (l : List Nat)
    (h : l.dropWhile p ≠ []) : (l.dropWhile p).getLast? = l.getLast? := by
  induction l with
  | nil => simp at h
  | cons a as ih =>
    rw [List.dropWhile_cons]
    by_cases ha : p a = true
    · rw [if_pos ha]
      rw [List.dropWhile_cons, if_pos ha] at h
      cases as with
      | nil => simp at h
      | cons b bs =>
        rw [List.getLast?_cons_cons]
        exact ih h
    · rw [if_neg ha]

theorem trimJS_idem (l : List Nat) : trimJS (trimJS l) = trimJS l := by
  unfold trimJS
  have h1 : ((l.dropWhile isSpaceJS).reverse.dropWhile isSpaceJS).reverse.dropWhile
      isSpaceJS = ((l.dropWhile isSpaceJS).reverse.dropWhile isSpaceJS).reverse := by
    apply dropWhile_eq_self_of_head?
    intro c hc
    rw [List.head?_reverse] at hc
    have hne : (l.dropWhile isSpaceJS).reverse.dropWhile isSpaceJS ≠ [] := by
      intro hnil
      rw [hnil] at hc
      simp at hc
    rw [getLast?_dropWhile _ _ hne] at hc
    rw [List.getLast?_reverse] at hc
    exact head?_dropWhile_not isSpaceJS l c hc
  rw [h1, List.reverse_reverse, dropWhile_dropWhile]

theorem trimJS_map_toLowerC (l : List Nat) :
    trimJS (l.map toLowerC) = (trimJS l).map toLowerC := by
  have hcomp : (isSpaceJS ∘ toLowerC) = isSpaceJS := by
    funext n
    exact isSpaceJS_toLowerC n
  unfold trimJS
  rw [List.dropWhile_map, hcomp, ← List.map_reverse, List.dropWhile_map, hcomp,
    ← List.map_reverse]

theorem normalizeWord_idem (w : List Nat) :
    normalizeWord (normalizeWord w) = normalizeWord w := by
  unfold normalizeWord
  rw [trimJS_map_toLowerC, trimJS_idem, List.map_map]
  have : (toLowerC ∘ toLowerC) = toLowerC := by
    funext n
    exact toLowerC_idem n
  rw [this]

theorem escapeRegExp_lit (w : List Nat) :
    litMatches (escapeRegExp w) = some w := by
  induction w with
  | nil => rfl
  | cons c cs ih =>
    have hstep : escapeRegExp (c :: cs) =
        (if isMeta c then [backslash, c] else [c]) ++ escapeRegExp cs := by
      simp [escapeRegExp]
    rw [hstep]
    by_cases h : isMeta c = true
    · rw [if_pos h]
      simp only [List.cons_append, List.nil_append]
      rw [litMatches.eq_def]
      simp [h, ih]
    · rw [if_neg h]
      have hc92 : ¬(c = backslash) := by
        intro hc
        apply h
        rw [hc]
        rfl
      simp only [List.cons_append, List.nil_append]
      rw [litMatches.eq_def]
      cases hE : escapeRegExp cs with
      | nil =>
        rw [hE] at ih
        simp [hc92, h, ih]
      | cons e es =>
        rw [hE] at ih
        simp [hc92, h, ih]

/-! ## C7: escaping makes extraction total and literal -/

/-- C7: for every target word the escaped word is a pure literal pattern
(no live regex syntax, no dangling escape) denoting exactly the word
itself, and `extractExampleSentence` always returns either the sentinel or
a nonempty sentence — it cannot fail. -/
theorem extract_never_fails (word text : List Nat) :
    litMatches (escapeRegExp word) = some word ∧
      (extractExampleSentence text word = sentinelExample ∨
        (extractExampleSentence text word).length > 0) := by
  refine ⟨escapeRegExp_lit word, ?_⟩
  unfold extractExampleSentence
  cases h : searchIdx (text.map toLowerC) (word.map toLowerC) with
  | none => simp [h]
  | some idx =>
    simp only [h]
    split_ifs with hlen
    · right
      exact hlen
    · left
      rfl

/-! ## C5: loading the personal dictionary never fails and normalizes -/

theorem mapSet_mem {m : List (List Nat × List Nat)} {k v : List Nat}
    {kv : List Nat × List Nat} (h : kv ∈ mapSet m k v) :
    kv ∈ m ∨ kv = (k, v) := by
  induction m with
  | nil =>
    right
    simpa [mapSet] using h
  | cons e rest ih =>
    obtain ⟨k0, v0⟩ := e
    rw [mapSet] at h
    by_cases he : k0 = k
    · simp only [he, if_true] at h
      rcases List.mem_cons.mp h with h1 | h1
      · right
        exact h1
      · left
        exact List.mem_cons_of_mem _ h1
    · simp only [he, if_false] at h
      rcases List.mem_cons.mp h with h1 | h1
      · left
        rw [h1]
        exact List.mem_cons_self _ _
      · rcases ih h1 with h2 | h2
        · left
          exact List.mem_cons_of_mem _ h2
        · right
          exact h2

theorem loadUserDictionary_entry_normal (ents : List (List Nat × JSValue)) :
    ∀ (acc : List (List Nat × List Nat)),
      (∀ kv ∈ acc, kv.1 = normalizeWord kv.1 ∧ kv.2 = trimJS kv.2 ∧
        kv.1 ≠ [] ∧ kv.2 ≠ []) →
      ∀ kv ∈ ents.foldl
        (fun acc kv =>
          let nk := normalizeWord kv.1
          let nv := trimJS (jsToStr kv.2)
          if !nk.isEmpty && !nv.isEmpty then mapSet acc nk nv else acc) acc,
        kv.1 = normalizeWord kv.1 ∧ kv.2 = trimJS kv.2 ∧ kv.1 ≠ [] ∧ kv.2 ≠ [] := by
  induction ents with
  | nil =>
    intro acc hacc kv hkv
    exact hacc kv hkv
  | cons e rest ih =>
    intro acc hacc kv hkv
    simp only [List.foldl_cons] at hkv
    refine ih _ ?_ kv hkv
    intro kv' hkv'
    by_cases hg : (!(normalizeWord e.1).isEmpty && !(trimJS (jsToStr e.2)).isEmpty) = true
    · simp only [hg, if_true] at hkv'
      rcases mapSet_mem hkv' with h1 | h1
      · exact hacc kv' h1
      · rw [h1]
        simp only [Bool.and_eq_true, Bool.not_eq_true', List.isEmpty_eq_false] at hg
        refine ⟨(normalizeWord_idem e.1).symm, (trimJS_idem (jsToStr e.2)).symm, ?_, ?_⟩
        · simpa using hg.1
        · simpa using hg.2
    · simp only [hg, if_false] at hkv'
      exact hacc kv' hkv'

unseal jsToStr in
/-- C5: loading the persisted store is total and normalizing — absent
data, parse failure and non-object shapes all load as the empty mapping,
every loaded entry has a normalized nonempty key and trimmed nonempty
value, and the spec's Foo-maps-to-a-bar scenario loads so that looking
up `"foo"` yields `"a bar"`. -/
theorem load_user_dictionary_safe :
    loadUserDictionary .absent = [] ∧
      loadUserDictionary .corrupt = [] ∧
      (∀ v : JSValue, isObjectType v = false → loadUserDictionary (.value v) = []) ∧
      (∀ p : Persisted, ∀ kv ∈ loadUserDictionary p,
        kv.1 = normalizeWord kv.1 ∧ kv.2 = trimJS kv.2 ∧ kv.1 ≠ [] ∧ kv.2 ≠ []) ∧
      lookupDefinition []
        (loadUserDictionary (.value (.jobj [(codes "Foo ", .jstr (codes " a bar "))])))
        (codes "foo") = codes "a bar" := by
  refine ⟨rfl, rfl, ?_, ?_, by decide⟩
  · intro v hv
    rw [loadUserDictionary]
    simp [hv]
  · intro p kv hkv
    cases p with
    | absent => simp [loadUserDictionary] at hkv
    | corrupt => simp [loadUserDictionary] at hkv
    | value v =>
      rw [loadUserDictionary] at hkv
      by_cases hshape : (isFalsy v || !isObjectType v) = true
      · rw [if_pos hshape] at hkv
        simp at hkv
      · rw [if_neg hshape] at hkv
        exact loadUserDictionary_entry_normal (jsEntries v) [] (by simp) kv hkv

unseal jsToStr in
/-- Witness for C5 at concrete inputs. -/
theorem load_user_dictionary_safe_witness :
    loadUserDictionary (.value (.jnum 3)) = [] ∧
      (codes "foo" = normalizeWord (codes "foo") ∧
        codes "a bar" = trimJS (codes "a bar") ∧
        codes "foo" ≠ [] ∧ codes "a bar" ≠ []) :=
  ⟨load_user_dictionary_safe.2.2.1 (.jnum 3) rfl,
    load_user_dictionary_safe.2.2.2.1
      (.value (.jobj [(codes "Foo ", .jstr (codes " a bar "))]))
      (codes "foo", codes "a bar") (by decide)⟩

/-! ## C3: two-tier dictionary lookup -/

theorem mapGet_mapSet (m : List (List Nat × List Nat)) (k v k' : List Nat) :
    mapGet (mapSet m k v) k' = if k = k' then some v else mapGet m k' := by
  induction m with
  | nil =>
    rw [mapSet]
    by_cases h : k = k' <;> simp [mapGet, h]
  | cons e rest ih =>
    obtain ⟨k0, v0⟩ := e
    rw [mapSet]
    by_cases h0 : k0 = k
    · rw [if_pos h0, mapGet, mapGet]
      by_cases h' : k0 = k'
      · rw [if_pos h', if_pos h', if_pos (h0 ▸ h')]
      · rw [if_neg h', if_neg h', if_neg (fun hk => h' (h0.trans hk))]
    · rw [if_neg h0, mapGet, mapGet]
      by_cases h' : k0 = k'
      · rw [if_pos h', if_pos h',
          if_neg (fun hk => h0 (h'.trans hk.symm))]
      · rw [if_neg h', if_neg h', ih]

theorem mapGet_foldl_mapSet (f : (List Nat × List Nat) → List Nat) :
    ∀ (ents m : List (List Nat × List Nat)) (k : List Nat),
      mapGet (ents.foldl (fun acc kv => mapSet acc (f kv) kv.2) m) k =
        match ents.reverse.find? (fun kv => decide (f kv = k)) with
        | some kv => some kv.2
        | none => mapGet m k := by
  intro ents
  induction ents with
  | nil =>
    intro m k
    simp
  | cons e rest ih =>
    intro m k
    rw [List.foldl_cons, ih, List.reverse_cons, List.find?_append]
    cases hfr : rest.reverse.find? (fun kv => decide (f kv = k)) with
    | some kv => simp [Option.or]
    | none =>
      rw [Option.none_or, List.find?_singleton, mapGet_mapSet]
      by_cases he : f e = k
      · rw [if_pos he, if_pos (by simpa using he)]
      · rw [if_neg he, if_neg (by simpa using he)]

/-- C3: the merged lookup normalizes the query and behaves as the
two-tier priority read the spec describes — the user mapping's value when
the normalized word is present there (so the user tier wins over the base
tier), else the base mapping's value, else the sentinel. -/
theorem lookup_two_tier (base user : List (List Nat × List Nat)) (w : List Nat) :
    lookupDefinition base user w =
      match userValue user (normalizeWord w), baseValue base (normalizeWord w) with
      | some d, _ => d
      | none, some d => d
      | none, none => sentinelDict := by
  unfold lookupDefinition combinedDictMap userValue baseValue
  rw [mapGet_foldl_mapSet (fun kv => normalizeWord kv.1),
    mapGet_foldl_mapSet (fun kv => kv.1)]
  cases hu : user.reverse.find? (fun kv => decide (normalizeWord kv.1 = normalizeWord w)) with
  | some kv => simp
  | none =>
    cases hb : base.reverse.find? (fun kv => decide (kv.1 = normalizeWord w)) with
    | some kv => simp [mapGet]
    | none => simp [mapGet, sentinelDict]

/-! ## C6: upsert / remove round trips -/

theorem mem_mapSet_self (m : List (List Nat × List Nat)) (k v : List Nat) :
    (k, v) ∈ mapSet m k v := by
  induction m with
  | nil =>
    rw [mapSet]
    exact List.mem_singleton.mpr rfl
  | cons e rest ih =>
    obtain ⟨k0, v0⟩ := e
    rw [mapSet]
    by_cases h0 : k0 = k
    · subst h0
      rw [if_pos rfl]
      exact List.mem_cons_self _ _
    · rw [if_neg h0]
      exact List.mem_cons_of_mem _ ih

theorem mapSet_mem_key {m : List (List Nat × List Nat)} {k v : List Nat}
    {kv : List Nat × List Nat} (hnd : (m.map Prod.fst).Nodup)
    (h : kv ∈ mapSet m k v) (hk : kv.1 = k) : kv = (k, v) := by
  induction m with
  | nil =>
    rw [mapSet] at h
    simpa using h
  | cons e rest ih =>
    obtain ⟨k0, v0⟩ := e
    simp only [List.map_cons, List.nodup_cons] at hnd
    rw [mapSet] at h
    by_cases h0 : k0 = k
    · subst h0
      rw [if_pos rfl] at h
      rcases List.mem_cons.mp h with h1 | h1
      · exact h1
      · exfalso
        apply hnd.1
        have : kv.1 ∈ rest.map Prod.fst := List.mem_map_of_mem Prod.fst h1
        rwa [hk] at this
    · rw [if_neg h0] at h
      rcases List.mem_cons.mp h with h1 | h1
      · exfalso
        apply h0
        rw [← hk, h1]
      · exact ih hnd.2 h1

theorem find?_unique {α : Type} (p : α → Bool) (l : List α) (x : α)
    (hmem : x ∈ l) (hpx : p x = true)
    (huniq : ∀ y ∈ l, p y = true → y = x) : l.find? p = some x := by
  induction l with
  | nil => simp at hmem
  | cons a as ih =>
    by_cases ha : p a = true
    · rw [List.find?_cons_of_pos _ ha]
      rw [huniq a (List.mem_cons_self _ _) ha]
    · rw [List.find?_cons_of_neg _ ha]
      rcases List.mem_cons.mp hmem with h1 | h1
      · exfalso
        rw [← h1] at ha
        exact ha hpx
      · exact ih h1 (fun y hy hpy => huniq y (List.mem_cons_of_mem _ hy) hpy)

/-- C6 counterexample: the claim promises that upsert followed by lookup
returns the definition exactly as supplied; the code trims it, so a
definition with surrounding whitespace comes back shortened. -/
theorem upsert_roundtrip_counterexample :
    lookupDefinition []
        (upsertUserDefinition [] (codes "foo") (codes " x "))
        (codes "foo") = codes "x" ∧
      ¬(codes "x" = codes " x ") := by
  constructor
  · rfl
  · decide

/-- C6 (amended): over a user dictionary whose keys are normalized and
duplicate-free (the invariant every reachable store satisfies), upsert of
a word and definition that are nonempty after normalization followed by a
lookup of that word returns the trimmed definition (the definition itself
whenever it carries no surrounding whitespace), and remove followed by a
lookup falls back to the base dictionary's value for the normalized word,
else the sentinel. -/
theorem upsert_remove_roundtrip (base user : List (List Nat × List Nat))
    (word defn : List Nat)
    (hnorm : ∀ kv ∈ user, normalizeWord kv.1 = kv.1)
    (hnd : (user.map Prod.fst).Nodup)
    (hw : normalizeWord word ≠ [])
    (hd : trimJS defn ≠ []) :
    lookupDefinition base (upsertUserDefinition user word defn) word =
        trimJS defn ∧
      lookupDefinition base (removeUserWord user word) word =
        (baseValue base (normalizeWord word)).getD sentinelDict := by
  have hwE : (normalizeWord word).isEmpty = false := by
    simpa [List.isEmpty_iff] using hw
  have hdE : (trimJS defn).isEmpty = false := by
    simpa [List.isEmpty_iff] using hd
  constructor
  · have hup : upsertUserDefinition user word defn =
        mapSet user (normalizeWord word) (trimJS defn) := by
      simp [upsertUserDefinition, hwE, hdE]
    rw [hup]
    unfold lookupDefinition combinedDictMap
    rw [mapGet_foldl_mapSet (fun kv => normalizeWord kv.1)]
    have hfind : (mapSet user (normalizeWord word) (trimJS defn)).reverse.find?
        (fun kv => decide (normalizeWord kv.1 = normalizeWord word)) =
        some (normalizeWord word, trimJS defn) := by
      apply find?_unique
      · exact List.mem_reverse.mpr (mem_mapSet_self user _ _)
      · simp [normalizeWord_idem]
      · intro y hy hpy
        have hy' := List.mem_reverse.mp hy
        simp only [decide_eq_true_eq] at hpy
        by_cases hyk : y.1 = normalizeWord word
        · exact mapSet_mem_key hnd hy' hyk
        · exfalso
          rcases mapSet_mem hy' with h1 | h1
          · rw [hnorm y h1] at hpy
            exact hyk hpy
          · apply hyk
            rw [h1]
    rw [hfind]
    rfl
  · have hrm : removeUserWord user word =
        user.filter (fun kv => !(decide (kv.1 = normalizeWord word))) := by
      simp [removeUserWord, hwE]
    rw [hrm]
    unfold lookupDefinition combinedDictMap
    rw [mapGet_foldl_mapSet (fun kv => normalizeWord kv.1)]
    have hfind : (user.filter
          (fun kv => !(decide (kv.1 = normalizeWord word)))).reverse.find?
        (fun kv => decide (normalizeWord kv.1 = normalizeWord word)) = none := by
      rw [List.find?_eq_none]
      intro y hy
      have hy' := List.mem_reverse.mp hy
      have hmem := List.mem_of_mem_filter hy'
      have hcond := List.of_mem_filter hy'
      simp only [Bool.not_eq_true', decide_eq_false_iff_not] at hcond
      simp only [decide_eq_true_eq]
      rw [hnorm y hmem]
      exact hcond
    rw [hfind]
    rw [mapGet_foldl_mapSet (fun kv => kv.1)]
    unfold baseValue
    cases hb : base.reverse.find? (fun kv => decide (kv.1 = normalizeWord word)) with
    | some kv => simp
    | none => simp [mapGet]

/-- Witness for C6 at concrete inputs. -/
theorem upsert_remove_roundtrip_witness :
    lookupDefinition [(codes "foo", codes "basedef")]
        (upsertUserDefinition [(codes "bar", codes "u")] (codes " Foo ") (codes " my def "))
        (codes " Foo ") = trimJS (codes " my def ") ∧
      lookupDefinition [(codes "foo", codes "basedef")]
        (removeUserWord [(codes "bar", codes "u")] (codes " Foo "))
        (codes " Foo ") =
        (baseValue [(codes "foo", codes "basedef")]
          (normalizeWord (codes " Foo "))).getD sentinelDict :=
  upsert_remove_roundtrip [(codes "foo", codes "basedef")]
    [(codes "bar", codes "u")] (codes " Foo ") (codes " my def ")
    (by
      intro kv hkv
      simp only [List.mem_singleton] at hkv
      subst hkv
      decide)
    (by decide) (by decide) (by decide)

/-! ## C9: shape of the tokens -/

theorem length_dropWhile_le (p : Nat → Bool) (l : List Nat) :
    (l.dropWhile p).length ≤ l.length := by
  induction l with
  | nil => simp
  | cons c cs ih =>
    rw [List.dropWhile_cons]
    by_cases h : p c = true
    · rw [if_pos h]
      simp only [List.length_cons]
      omega
    · rw [if_neg h]

theorem takeWhile_of_all (p : Nat → Bool) (l : List Nat)
    (h : ∀ x ∈ l, p x = true) : l.takeWhile p = l := by
  induction l with
  | nil => simp
  | cons c cs ih =>
    rw [List.takeWhile_cons, if_pos (h c (List.mem_cons_self _ _))]
    rw [ih (fun x hx => h x (List.mem_cons_of_mem _ hx))]

theorem dropWhile_of_all (p : Nat → Bool) (l : List Nat)
    (h : ∀ x ∈ l, p x = true) : l.dropWhile p = [] := by
  induction l with
  | nil => simp
  | cons c cs ih =>
    rw [List.dropWhile_cons, if_pos (h c (List.mem_cons_self _ _))]
    exact ih (fun x hx => h x (List.mem_cons_of_mem _ hx))

theorem takeWhile_append_not (p : Nat → Bool) (xs ys : List Nat)
    (hxs : ∀ x ∈ xs, p x = true)
    (hys : ∀ y, ys.head? = some y → p y = false) :
    (xs ++ ys).takeWhile p = xs ∧ (xs ++ ys).dropWhile p = ys := by
  induction xs with
  | nil =>
    simp only [List.nil_append]
    cases ys with
    | nil => simp
    | cons y ys' =>
      have hy := hys y rfl
      rw [List.takeWhile_cons, List.dropWhile_cons]
      simp [hy]
  | cons x xs' ih =>
    have hx := hxs x (List.mem_cons_self _ _)
    obtain ⟨ih1, ih2⟩ := ih (fun z hz => hxs z (List.mem_cons_of_mem _ hz))
    constructor
    · rw [List.cons_append, List.takeWhile_cons, if_pos hx, ih1]
    · rw [List.cons_append, List.dropWhile_cons, if_pos hx, ih2]

theorem isValidToken_run (c : Nat) (l : List Nat) (hc : isLowerAZ c = true)
    (hl : ∀ x ∈ l, isLowerAZ x = true) : isValidToken (c :: l) = true := by
  have hall : ∀ x ∈ c :: l, isLowerAZ x = true := by
    intro x hx
    rcases List.mem_cons.mp hx with h | h
    · rw [h]
      exact hc
    · exact hl x h
  unfold isValidToken
  rw [takeWhile_of_all _ _ hall, dropWhile_of_all _ _ hall]
  simp

theorem isValidToken_contraction (c d : Nat) (l1 l2 : List Nat)
    (hc : isLowerAZ c = true) (hd : isLowerAZ d = true)
    (hl1 : ∀ x ∈ l1, isLowerAZ x = true) (hl2 : ∀ x ∈ l2, isLowerAZ x = true) :
    isValidToken ((c :: l1) ++ apos :: d :: l2) = true := by
  have hall : ∀ x ∈ c :: l1, isLowerAZ x = true := by
    intro x hx
    rcases List.mem_cons.mp hx with h | h
    · rw [h]
      exact hc
    · exact hl1 x h
  have hap : ∀ y, (apos :: d :: l2).head? = some y → isLowerAZ y = false := by
    intro y hy
    simp only [List.head?_cons, Option.some.injEq] at hy
    subst hy
    decide
  obtain ⟨h1, h2⟩ := takeWhile_append_not isLowerAZ (c :: l1) (apos :: d :: l2) hall hap
  have h3 : (d :: l2).all isLowerAZ = true := by
    rw [List.all_eq_true]
    intro x hx
    rcases List.mem_cons.mp hx with h | h
    · rw [h]
      exact hd
    · exact hl2 x h
  unfold isValidToken
  rw [h1, h2]
  simp [h3]

theorem tokenizeAux_valid :
    ∀ (n : Nat) (l : List Nat), l.length ≤ n →
      ∀ t ∈ tokenizeAux l, isValidToken t = true := by
  intro n
  induction n with
  | zero =>
    intro l hl t ht
    have : l = [] := List.length_eq_zero.mp (Nat.le_zero.mp hl)
    subst this
    rw [tokenizeAux] at ht
    simp at ht
  | succ n ih =>
    intro l hl t ht
    cases l with
    | nil =>
      rw [tokenizeAux] at ht
      simp at ht
    | cons c rest =>
      rw [tokenizeAux.eq_def] at ht
      simp only at ht
      by_cases hc : isLowerAZ c = true
      · rw [if_pos hc] at ht
        have hrest : rest.length ≤ n := by
          simp only [List.length_cons] at hl
          omega
        split at ht
        case _ a d rest2 heq =>
          have hlen2 : rest2.length + 2 ≤ rest.length := by
            have := length_dropWhile_le isLowerAZ rest
            rw [heq] at this
            simp only [List.length_cons] at this
            omega
          split at ht
          case _ hA =>
            obtain ⟨ha, hd⟩ := hA
            subst ha
            rcases List.mem_cons.mp ht with h1 | h1
            · subst h1
              exact isValidToken_contraction c d (rest.takeWhile isLowerAZ)
                (rest2.takeWhile isLowerAZ) hc hd
                (fun x hx => List.mem_takeWhile_imp hx)
                (fun x hx => List.mem_takeWhile_imp hx)
            · refine ih (rest2.dropWhile isLowerAZ) ?_ t h1
              have := length_dropWhile_le isLowerAZ rest2
              omega
          case _ hA =>
            rcases List.mem_cons.mp ht with h1 | h1
            · subst h1
              exact isValidToken_run c (rest.takeWhile isLowerAZ) hc
                (fun x hx => List.mem_takeWhile_imp hx)
            · refine ih (a :: d :: rest2) ?_ t h1
              simp only [List.length_cons]
              omega
        case _ hne =>
          rcases List.mem_cons.mp ht with h1 | h1
          · subst h1
            exact isValidToken_run c (rest.takeWhile isLowerAZ) hc
              (fun x hx => List.mem_takeWhile_imp hx)
          · refine ih (rest.dropWhile isLowerAZ) ?_ t h1
            have := length_dropWhile_le isLowerAZ rest
            omega
      · rw [if_neg hc] at ht
        exact ih rest (by simp only [List.length_cons] at hl; omega) t ht

theorem tokenizeAux_no_letters :
    ∀ l : List Nat, (∀ c ∈ l, isLowerAZ c = false) → tokenizeAux l = [] := by
  intro l
  induction l with
  | nil =>
    intro _
    rw [tokenizeAux]
  | cons c rest ih =>
    intro h
    rw [tokenizeAux.eq_def]
    simp only
    rw [if_neg (by simp [h c (List.mem_cons_self _ _)])]
    exact ih (fun x hx => h x (List.mem_cons_of_mem _ hx))

/-- C9: every token produced by `tokenize` is one or more lowercase
letters optionally followed by a single apostrophe plus one or more
lowercase letters (so no punctuation, digit or isolated apostrophe
survives), and an input with no matches — no character that lowercases to
a letter — yields the empty sequence. -/
theorem tokenize_token_shape (text : List Nat) :
    (∀ t ∈ tokenize text, isValidToken t = true) ∧
      ((∀ c ∈ text, isLowerAZ (toLowerC c) = false) → tokenize text = []) := by
  constructor
  · intro t ht
    exact tokenizeAux_valid (text.map toLowerC).length (text.map toLowerC)
      le_rfl t ht
  · intro hno
    apply tokenizeAux_no_letters
    intro c hc
    rcases List.mem_map.mp hc with ⟨c0, hc0, rfl⟩
    exact hno c0 hc0

unseal tokenizeAux in
/-- Witness for C9 at concrete inputs. -/
theorem tokenize_token_shape_witness :
    isValidToken (codes "abc") = true ∧ tokenize (codes "123 !") = [] :=
  ⟨(tokenize_token_shape (codes "abc")).1 (codes "abc") (by decide),
    (tokenize_token_shape (codes "123 !")).2 (by decide)⟩

/-! ## Frequency table and candidate list lemmas (C2, C8, C10) -/

theorem bump_mem_entry {m : List (List Nat × Nat)} {t : List Nat}
    {kv : List Nat × Nat} (h : kv ∈ bump m t) :
    kv.1 ∈ m.map Prod.fst ∨ kv.1 = t := by
  induction m with
  | nil =>
    rw [bump] at h
    right
    rcases List.mem_singleton.mp h with rfl
    rfl
  | cons e rest ih =>
    obtain ⟨k, v⟩ := e
    rw [bump] at h
    by_cases hk : k = t
    · rw [if_pos hk] at h
      rcases List.mem_cons.mp h with h1 | h1
      · right
        rw [h1, hk]
      · left
        exact List.mem_cons_of_mem _ (List.mem_map_of_mem Prod.fst h1)
    · rw [if_neg hk] at h
      rcases List.mem_cons.mp h with h1 | h1
      · left
        rw [h1]
        exact List.mem_cons_self _ _
      · rcases ih h1 with h2 | h2
        · left
          exact List.mem_cons_of_mem _ h2
        · right
          exact h2

theorem foldl_bump_mem :
    ∀ (ts : List (List Nat)) (acc : List (List Nat × Nat)) (kv : List Nat × Nat),
      kv ∈ ts.foldl bump acc → kv.1 ∈ acc.map Prod.fst ∨ kv.1 ∈ ts := by
  intro ts
  induction ts with
  | nil =>
    intro acc kv h
    left
    exact List.mem_map_of_mem Prod.fst h
  | cons t ts' ih =>
    intro acc kv h
    rw [List.foldl_cons] at h
    rcases ih (bump acc t) kv h with h1 | h1
    · rcases List.mem_map.mp h1 with ⟨kv', hkv', hfst⟩
      rcases bump_mem_entry hkv' with h2 | h2
      · left
        rw [← hfst]
        exact h2
      · right
        rw [← hfst, h2]
        exact List.mem_cons_self _ _
    · right
      exact List.mem_cons_of_mem _ h1

theorem bump_keys (m : List (List Nat × Nat)) (t : List Nat) :
    (bump m t).map Prod.fst =
      if t ∈ m.map Prod.fst then m.map Prod.fst else m.map Prod.fst ++ [t] := by
  induction m with
  | nil => simp [bump]
  | cons e rest ih =>
    obtain ⟨k, v⟩ := e
    rw [bump]
    by_cases hk : k = t
    · subst hk
      rw [if_pos rfl]
      simp
    · rw [if_neg hk, List.map_cons, ih, List.map_cons]
      by_cases hm : t ∈ rest.map Prod.fst
      · rw [if_pos hm, if_pos (List.mem_cons_of_mem _ hm)]
      · rw [if_neg hm, if_neg ?_, List.cons_append]
        intro hcon
        rcases List.mem_cons.mp hcon with h1 | h1
        · exact hk h1.symm
        · exact hm h1

theorem foldl_bump_keys_nodup :
    ∀ (ts : List (List Nat)) (acc : List (List Nat × Nat)),
      (acc.map Prod.fst).Nodup → ((ts.foldl bump acc).map Prod.fst).Nodup := by
  intro ts
  induction ts with
  | nil =>
    intro acc h
    exact h
  | cons t ts' ih =>
    intro acc h
    rw [List.foldl_cons]
    apply ih
    rw [bump_keys]
    by_cases hm : t ∈ acc.map Prod.fst
    · rw [if_pos hm]
      exact h
    · rw [if_neg hm]
      simp [List.nodup_append, h, hm]

theorem mem_candidatesOf {text : List Nat} {kv : List Nat × Nat}
    (h : kv ∈ candidatesOf text) : kv ∈ filteredOf text := by
  unfold candidatesOf at h
  have h1 := (List.take_sublist 75 _).subset h
  exact ((List.perm_insertionSort _ _).mem_iff).mp h1

theorem validToken_chars {t : List Nat} (h : isValidToken t = true) :
    ∀ x ∈ t, isLowerAZ x = true ∨ x = apos := by
  intro x hx
  rw [← List.takeWhile_append_dropWhile (p := isLowerAZ) (l := t)] at hx
  rcases List.mem_append.mp hx with h1 | h1
  · left
    exact List.mem_takeWhile_imp h1
  · cases hdw : t.dropWhile isLowerAZ with
    | nil =>
      rw [hdw] at h1
      simp at h1
    | cons a s =>
      unfold isValidToken at h
      rw [hdw] at h h1
      simp only [List.isEmpty_cons, Bool.false_or, Bool.and_eq_true,
        Bool.not_eq_true', List.isEmpty_eq_false, decide_eq_true_eq,
        List.all_eq_true] at h
      rcases List.mem_cons.mp h1 with h2 | h2
      · right
        rw [h2, h.2.1.1]
      · left
        exact h.2.2 x h2

theorem map_id_of_mem {f : Nat → Nat} :
    ∀ {l : List Nat}, (∀ x ∈ l, f x = x) → l.map f = l := by
  intro l
  induction l with
  | nil => simp
  | cons c cs ih =>
    intro h
    rw [List.map_cons, h c (List.mem_cons_self _ _),
      ih (fun x hx => h x (List.mem_cons_of_mem _ hx))]

/-! ## C2: the emitted word field is the lowercase token -/

unseal tokenizeAux in
/-- C2 counterexample: for the text consisting of the single word
`Crepuscular`, the assembled record's word field is the lowercase token
`crepuscular`, not the original-case surface form `Crepuscular` the claim
promises. -/
theorem surface_form_counterexample :
    (resultsOf [] [] (codes "Crepuscular")).map UncommonWord.word =
        [codes "crepuscular"] ∧
      ¬(codes "crepuscular" = codes "Crepuscular") := by
  constructor
  · decide
  · decide

/-- C2 (amended): each record's word field is the lowercase token itself —
the key of the frequency map — and is fixed by lowercasing; the assembler
does not track any original-case surface form. -/
theorem results_word_is_lowercase_token (base user : List (List Nat × List Nat))
    (text : List Nat) :
    ∀ r ∈ resultsOf base user text,
      r.word ∈ tokenize text ∧ r.word.map toLowerC = r.word := by
  intro r hr
  unfold resultsOf at hr
  by_cases hE : text.isEmpty = true
  · rw [if_pos hE] at hr
    simp at hr
  · rw [if_neg hE] at hr
    rcases List.mem_map.mp hr with ⟨kv, hkv, rfl⟩
    have hflt : kv ∈ filteredOf text := mem_candidatesOf hkv
    have hcnt : kv ∈ countsOf (tokenize text) := List.mem_of_mem_filter hflt
    have hkey : kv.1 ∈ tokenize text := by
      rcases foldl_bump_mem (tokenize text) [] kv hcnt with h1 | h1
      · simp at h1
      · exact h1
    have hvalid : isValidToken kv.1 = true :=
      tokenizeAux_valid (text.map toLowerC).length (text.map toLowerC)
        le_rfl kv.1 hkey
    refine ⟨hkey, ?_⟩
    apply map_id_of_mem
    intro x hx
    rcases validToken_chars hvalid x hx with h1 | h1
    · unfold toLowerC
      rw [if_neg ?_]
      simp only [isLowerAZ, decide_eq_true_eq] at h1
      omega
    · rw [h1]
      rfl

unseal tokenizeAux in
/-- Witness for the amended C2 at a concrete input. -/
theorem results_word_is_lowercase_token_witness :
    codes "crepuscular" ∈ tokenize (codes "Crepuscular") ∧
      (codes "crepuscular").map toLowerC = codes "crepuscular" :=
  results_word_is_lowercase_token [] [] (codes "Crepuscular")
    { word := codes "crepuscular"
      definition := sentinelDict
      exampleFromText := codes "Crepuscular" } (by decide)

/-! ## C10: output words are pairwise distinct -/

/-- C10: the word fields of the assembled output are pairwise distinct,
because they are the keys of the frequency map. -/
theorem results_words_distinct (base user : List (List Nat × List Nat))
    (text : List Nat) :
    ((resultsOf base user text).map UncommonWord.word).Nodup := by
  unfold resultsOf
  by_cases hE : text.isEmpty = true
  · rw [if_pos hE]
    simp
  · rw [if_neg hE]
    rw [List.map_map]
    show ((candidatesOf text).map (fun kv => kv.1)).Nodup
    have h1 : ((countsOf (tokenize text)).map Prod.fst).Nodup :=
      foldl_bump_keys_nodup (tokenize text) [] (by simp)
    have h2 : ((filteredOf text).map Prod.fst).Nodup :=
      h1.sublist ((List.filter_sublist _).map Prod.fst)
    have h3 : ((List.insertionSort (fun a b => rankLE a b = true)
        (filteredOf text)).map Prod.fst).Nodup :=
      (((List.perm_insertionSort _ _).map Prod.fst).symm).nodup h2
    unfold candidatesOf
    rw [List.map_take]
    exact h3.sublist (List.take_sublist _ _)

/-! ## C8: filter policy and truncation -/

/-- C8: every ranked entry is a token surviving the stopword and
minimum-length-8 filter, the output has at most 75 entries, and when fewer
than 75 candidates survive the filter the output is exactly all of them
(a permutation of the filtered table — never padded). -/
theorem candidates_filter_policy (text : List Nat) :
    (∀ kv ∈ candidatesOf text,
      kv.1 ∈ tokenize text ∧ STOPWORDS.contains kv.1 = false ∧ 8 ≤ kv.1.length) ∧
      (candidatesOf text).length ≤ 75 ∧
      ((filteredOf text).length < 75 →
        (candidatesOf text).Perm (filteredOf text)) := by
  refine ⟨?_, ?_, ?_⟩
  · intro kv hkv
    have hflt : kv ∈ filteredOf text := mem_candidatesOf hkv
    have hcnt : kv ∈ countsOf (tokenize text) := List.mem_of_mem_filter hflt
    have hcond := List.of_mem_filter hflt
    simp only [Bool.and_eq_true, Bool.not_eq_true', decide_eq_false_iff_not,
      Nat.not_lt] at hcond
    refine ⟨?_, hcond.1, hcond.2⟩
    rcases foldl_bump_mem (tokenize text) [] kv hcnt with h1 | h1
    · simp at h1
    · exact h1
  · unfold candidatesOf
    have := List.length_take 75 (List.insertionSort
      (fun a b => rankLE a b = true) (filteredOf text))
    omega
  · intro hlt
    unfold candidatesOf
    have hlen : (List.insertionSort (fun a b => rankLE a b = true)
        (filteredOf text)).length = (filteredOf text).length :=
      (List.perm_insertionSort _ _).length_eq
    rw [List.take_of_length_le (by omega)]
    exact List.perm_insertionSort _ _

unseal tokenizeAux in
/-- Witness for C8 at the spec's own scenario text. -/
theorem candidates_filter_policy_witness :
    ((codes "crepuscular", 1).1 ∈
        tokenize (codes "The crepuscular light was lugubrious. Night fell early.") ∧
      STOPWORDS.contains (codes "crepuscular", 1).1 = false ∧
      8 ≤ (codes "crepuscular", 1).1.length) ∧
      (candidatesOf (codes "The crepuscular light was lugubrious. Night fell early.")).length ≤ 75 ∧
      (candidatesOf (codes "The crepuscular light was lugubrious. Night fell early.")).Perm
        (filteredOf (codes "The crepuscular light was lugubrious. Night fell early.")) :=
  ⟨(candidates_filter_policy _).1 (codes "crepuscular", 1) (by decide),
    (candidates_filter_policy _).2.1,
    (candidates_filter_policy _).2.2 (by decide)⟩

/-! ## C1: the candidate list is sorted by the composite key -/

theorem lexLE_total (x y : List Nat) : lexLE x y = true ∨ lexLE y x = true := by
  induction x generalizing y with
  | nil =>
    left
    rw [lexLE]
  | cons a as ih =>
    cases y with
    | nil =>
      right
      rw [lexLE]
    | cons b bs =>
      by_cases hab : a = b
      · subst hab
        rw [lexLE, if_pos rfl, lexLE, if_pos rfl]
        exact ih bs
      · rw [lexLE, if_neg hab, lexLE, if_neg (fun h => hab h.symm)]
        rcases Nat.lt_or_ge a b with h | h
        · left
          simpa using h
        · right
          simp only [decide_eq_true_eq]
          omega

theorem lexLE_trans {x y z : List Nat} (hxy : lexLE x y = true)
    (hyz : lexLE y z = true) : lexLE x z = true := by
  induction x generalizing y z with
  | nil => rw [lexLE]
  | cons a as ih =>
    cases y with
    | nil =>
      rw [lexLE] at hxy
      exact absurd hxy (by simp)
    | cons b bs =>
      cases z with
      | nil =>
        rw [lexLE] at hyz
        exact absurd hyz (by simp)
      | cons c cs =>
        by_cases hab : a = b <;> by_cases hbc : b = c
        · subst hab
          subst hbc
          rw [lexLE, if_pos rfl] at hxy hyz ⊢
          exact ih hxy hyz
        · subst hab
          rw [lexLE, if_neg hbc] at hyz ⊢
          exact hyz
        · subst hbc
          rw [lexLE, if_neg hab] at hxy ⊢
          exact hxy
        · rw [lexLE, if_neg hab] at hxy
          rw [lexLE, if_neg hbc] at hyz
          simp only [decide_eq_true_eq] at hxy hyz
          have hac : a ≠ c := by omega
          rw [lexLE, if_neg hac]
          simp only [decide_eq_true_eq]
          omega

theorem rankLE_total (x y : List Nat × Nat) :
    rankLE x y = true ∨ rankLE y x = true := by
  unfold rankLE
  split_ifs <;>
    first
      | exact lexLE_total x.1 y.1
      | (simp only [decide_eq_true_eq]
         omega)

theorem rankLE_trans {x y z : List Nat × Nat} (hxy : rankLE x y = true)
    (hyz : rankLE y z = true) : rankLE x z = true := by
  unfold rankLE at hxy hyz ⊢
  split_ifs at hxy hyz ⊢ <;>
    (try simp only [decide_eq_true_eq] at hxy) <;>
    (try simp only [decide_eq_true_eq] at hyz) <;>
    first
      | exact lexLE_trans hxy hyz
      | (simp only [decide_eq_true_eq]
         omega)
      | omega

instance : IsTotal (List Nat × Nat) (fun a b => rankLE a b = true) :=
  ⟨rankLE_total⟩

instance : IsTrans (List Nat × Nat) (fun a b => rankLE a b = true) :=
  ⟨fun _ _ _ => rankLE_trans⟩

theorem rankLE_imp_rankRel {x y : List Nat × Nat} (h : rankLE x y = true) :
    rankRel x y := by
  unfold rankLE at h
  unfold rankRel
  split_ifs at h with h1 h2
  · left
    simpa using h
  · right
    simp only [decide_eq_true_eq] at h
    exact ⟨by omega, Or.inl h⟩
  · right
    refine ⟨by omega, Or.inr ⟨by omega, h⟩⟩

/-- C1: in the ranked candidate list no two adjacent entries violate the
composite chain — ascending count first, then descending token length on
equal counts, then lexicographic ascending on equal counts and lengths. -/
theorem candidates_sorted (text : List Nat) :
    List.Chain' rankRel (candidatesOf text) := by
  unfold candidatesOf
  have hsorted : List.Pairwise (fun a b => rankLE a b = true)
      (List.insertionSort (fun a b => rankLE a b = true) (filteredOf text)) :=
    List.sorted_insertionSort _ _
  have htake : List.Pairwise (fun a b => rankLE a b = true)
      ((List.insertionSort (fun a b => rankLE a b = true)
        (filteredOf text)).take 75) :=
    hsorted.sublist (List.take_sublist _ _)
  exact (htake.imp (fun h => rankLE_imp_rankRel h)).chain'

/-! ## C4: the example extractor matches its specification -/

theorem lastTermBefore_succ (l : List Nat) (i : Nat) :
    lastTermBefore l (i + 1) =
      if isTerm (l.getD i 0) then some i else lastTermBefore l i := by
  unfold lastTermBefore
  rw [List.range_succ, List.reverse_append]
  simp only [List.reverse_cons, List.reverse_nil, List.nil_append,
    List.singleton_append]
  cases ht : isTerm (l.getD i 0) with
  | true =>
    rw [List.find?_cons_of_pos _ (by simpa using ht)]
    simp
  | false =>
    rw [List.find?_cons_of_neg _ (by simpa using ht)]
    simp

theorem scanBack_spec (l : List Nat) :
    ∀ idx : Nat, idx ≤ l.length →
      idx - scanBackCount ((l.take idx).reverse) = sentenceStart l idx := by
  intro idx
  induction idx with
  | zero =>
    intro _
    simp [scanBackCount, sentenceStart, lastTermBefore]
  | succ i ih =>
    intro h
    have hi : i < l.length := by omega
    have htake : l.take (i + 1) = l.take i ++ [l.getD i 0] := by
      rw [List.take_succ, List.getElem?_eq_getElem hi, List.getD_eq_getElem l 0 hi]
      rfl
    rw [htake, List.reverse_append]
    simp only [List.reverse_cons, List.reverse_nil, List.nil_append,
      List.singleton_append]
    rw [scanBackCount]
    unfold sentenceStart
    rw [lastTermBefore_succ]
    cases ht : isTerm (l.getD i 0) with
    | true => simp [ht]
    | false =>
      simp only [ht, Bool.false_eq_true, if_false]
      have harith : (i + 1) - (scanBackCount ((l.take i).reverse) + 1) =
          i - scanBackCount ((l.take i).reverse) := by
        omega
      rw [harith]
      exact ih (by omega)

theorem scanFwd_spec (l : List Nat) :
    ∀ idx : Nat, idx ≤ l.length →
      idx + scanFwdCount (l.drop idx) = sentenceStop l idx := by
  induction l with
  | nil =>
    intro idx h
    have : idx = 0 := by simpa using h
    subst this
    simp [scanFwdCount, sentenceStop, firstTermFrom]
  | cons c cs ih =>
    intro idx h
    cases idx with
    | zero =>
      rw [List.drop_zero]
      unfold sentenceStop firstTermFrom
      simp only [List.length_cons]
      rw [List.range_succ_eq_map]
      cases ht : isTerm c with
      | true =>
        rw [List.find?_cons_of_pos _ (by simp [ht])]
        show 0 + scanFwdCount (c :: cs) = 0 + 1
        rw [scanFwdCount, if_pos ht]
      | false =>
        rw [List.find?_cons_of_neg _ (by simp [ht])]
        rw [List.find?_map]
        have hpred : ((fun j => decide (0 ≤ j) && isTerm ((c :: cs).getD j 0)) ∘
            Nat.succ) = (fun j => decide (0 ≤ j) && isTerm (cs.getD j 0)) := by
          funext j
          simp [Function.comp]
        rw [hpred]
        have hcs := ih 0 (by omega)
        rw [List.drop_zero] at hcs
        unfold sentenceStop firstTermFrom at hcs
        simp only [Nat.zero_add] at hcs
        cases hf : (List.range cs.length).find?
            (fun j => decide (0 ≤ j) && isTerm (cs.getD j 0)) with
        | some j =>
          rw [hf] at hcs
          have hcs2 : scanFwdCount cs = j + 1 := hcs
          show 0 + scanFwdCount (c :: cs) = j + 1 + 1
          rw [scanFwdCount, if_neg (by simp [ht])]
          omega
        | none =>
          rw [hf] at hcs
          have hcs2 : scanFwdCount cs = cs.length := hcs
          show 0 + scanFwdCount (c :: cs) = cs.length + 1
          rw [scanFwdCount, if_neg (by simp [ht])]
          omega
    | succ i =>
      rw [List.drop_succ_cons]
      have hi : i ≤ cs.length := by
        simp only [List.length_cons] at h
        omega
      have hcs := ih i hi
      unfold sentenceStop firstTermFrom at hcs ⊢
      simp only [List.length_cons]
      rw [List.range_succ_eq_map]
      rw [List.find?_cons_of_neg _ (by simp)]
      rw [List.find?_map]
      have hpred : ((fun j => decide (i + 1 ≤ j) && isTerm ((c :: cs).getD j 0)) ∘
          Nat.succ) = (fun j => decide (i ≤ j) && isTerm (cs.getD j 0)) := by
        funext j
        simp [Function.comp, Nat.succ_le_succ_iff]
      rw [hpred]
      cases hf : (List.range cs.length).find?
          (fun j => decide (i ≤ j) && isTerm (cs.getD j 0)) with
      | some j =>
        rw [hf] at hcs
        have hcs2 : i + scanFwdCount (List.drop i cs) = j + 1 := hcs
        show i + 1 + scanFwdCount (List.drop i cs) = j + 1 + 1
        omega
      | none =>
        rw [hf] at hcs
        have hcs2 : i + scanFwdCount (List.drop i cs) = cs.length := hcs
        show i + 1 + scanFwdCount (List.drop i cs) = cs.length + 1
        omega

theorem searchIdx_le {t w : List Nat} {idx : Nat}
    (h : searchIdx t w = some idx) : idx ≤ t.length := by
  unfold searchIdx at h
  have hmem := List.mem_of_find?_eq_some h
  rw [List.mem_range] at hmem
  omega

/-- C4: `extractExampleSentence` equals the spec-worded extractor — the
sentinel when the word has no case-insensitive whole-word occurrence,
otherwise the trimmed slice between one past the nearest terminator
strictly before the first match (exclusive) and one past the nearest
terminator at or after it (inclusive), capped by the text's ends, with the
sentinel replacing an empty trim — and in particular the no-occurrence
case returns the sentinel. -/
theorem extract_example_matches_spec (text word : List Nat) :
    extractExampleSentence text word = extractExampleSpec text word ∧
      (searchIdx (text.map toLowerC) (word.map toLowerC) = none →
        extractExampleSentence text word = sentinelExample) := by
  constructor
  · unfold extractExampleSentence extractExampleSpec
    dsimp only
    cases h : searchIdx (text.map toLowerC) (word.map toLowerC) with
    | none => rfl
    | some idx =>
      have hle : idx ≤ text.length := by
        have h2 := searchIdx_le h
        rwa [List.length_map] at h2
      dsimp only
      rw [scanBack_spec text idx hle, scanFwd_spec text idx hle]
  · intro h
    unfold extractExampleSentence
    dsimp only
    rw [h]

/-- Witness for C4 at a concrete no-occurrence input. -/
theorem extract_example_matches_spec_witness :
    extractExampleSentence (codes "hello world.") (codes "zebra") =
        extractExampleSpec (codes "hello world.") (codes "zebra") ∧
      extractExampleSentence (codes "hello world.") (codes "zebra") =
        sentinelExample :=
  ⟨(extract_example_matches_spec (codes "hello world.") (codes "zebra")).1,
    (extract_example_matches_spec (codes "hello world.") (codes "zebra")).2
      (by decide)⟩

end EmersonDict
